import Mathlib

/-!
# Verification of `speechrate.py`

A shallow embedding of the two core functions of the repository:

* `get_context`   — extracts the left/right context windows around a
  reference token of a Buckeye `.words` annotation-line list and returns the
  temporal distances of the window tokens from the reference token;
* `get_speechrate` — turns the two distance lists into a speech-rate value.

Python floats are modelled as rationals (`ℚ`); the timestamps appearing in
the corpus are short decimal literals, on which Python float arithmetic and
exact rational arithmetic agree for the operations used here (subtraction,
maximum, division).  Python `int` is modelled as `ℤ`, Python list slicing
(including its clamping and negative-index behaviour) is modelled by
`pySlice`, and the exceptions the code can raise are modelled by `PyErr`
(`ValueError` from tuple unpacking or `float()`, `IndexError` from a
missing list element).
-/

set_option autoImplicit false

deriving instance DecidableEq for Except

namespace Speechrate

/-- The classes of exception that `get_context` can raise.  (CPython attaches
a message to a `ValueError`, naming the unconvertible string, but neither
exception carries the line position.) -/
inductive PyErr where
  | valueError : PyErr
  | indexError : PyErr
deriving DecidableEq, Repr

/-- Python `str.strip()` on a list of characters: remove leading and
trailing whitespace. -/
def pyStrip (cs : List Char) : List Char :=
  ((cs.dropWhile Char.isWhitespace).reverse.dropWhile Char.isWhitespace).reverse

/-- Auxiliary recursion for Python `str.split(sep, maxsplit)`: `acc` holds the
(reversed) characters of the chunk being built, `fuel` the number of splits
still allowed. -/
def pySplitAux (sep : Char) : List Char → Nat → List Char → List (List Char)
  | [], _, acc => [acc.reverse]
  | c :: cs, fuel, acc =>
    if c = sep then
      match fuel with
      | 0 => [acc.reverse ++ c :: cs]
      | fuel' + 1 => acc.reverse :: pySplitAux sep cs fuel' []
    else
      pySplitAux sep cs fuel (c :: acc)

/-- Python `str.split(sep, maxsplit)` with a one-character separator: split at
each occurrence of `sep` (empty chunks preserved), at most `maxsplit` times;
the remainder after the last allowed split is kept verbatim. -/
def pySplit (sep : Char) (maxsplit : Nat) (cs : List Char) : List (List Char) :=
  pySplitAux sep cs maxsplit []

/-- Numeric value of a digit string. -/
def digitsVal (cs : List Char) : Nat :=
  cs.foldl (fun n c => 10 * n + (c.toNat - 48)) 0

/-- Python `float()` on a plain decimal literal, after stripping: an optional
sign followed by `digits`, `digits.digits`, `digits.` or `.digits`.  (The
exotic float syntaxes — exponents, `inf`, `nan`, underscores — never occur in
the corpus timestamps and are not modelled.)  Returns `none` where `float()`
raises `ValueError`. -/
def pyFloatCore (t : List Char) : Option ℚ :=
  match t with
  | '-' :: t' => (pyFloatMag t').map (fun q => -q)
  | '+' :: t' => pyFloatMag t'
  | _ => pyFloatMag t
where
  /-- The unsigned part of the literal. -/
  pyFloatMag (t : List Char) : Option ℚ :=
    let ip := t.takeWhile Char.isDigit
    let rest := t.dropWhile Char.isDigit
    match rest with
    | [] => if ip.isEmpty then none else some ((digitsVal ip : ℚ))
    | '.' :: fr =>
        if fr.all Char.isDigit ∧ ¬(ip.isEmpty ∧ fr.isEmpty) then
          some ((digitsVal ip : ℚ) + (digitsVal fr : ℚ) / (10 : ℚ) ^ fr.length)
        else none
    | _ => none

/-- Python `float(s)` (stripping the argument first, as `float()` itself
tolerates surrounding whitespace). -/
def pyFloat (cs : List Char) : Option ℚ :=
  pyFloatCore (pyStrip cs)

/-- A parsed token record, `{"t": float(time), "word": trans.split(" ", 2)[1]}`
in the source. -/
structure Token where
  t : ℚ
  word : List Char
deriving DecidableEq, Repr

instance : Inhabited Token := ⟨⟨0, []⟩⟩

/-- The break-label tuple `BREAK_LABELS` of the source. -/
def BREAK_LABELS : List (List Char) :=
  ["<SIL>".data, "<LAUGH>".data, "<IVER>".data, "<UNKNOWN>".data,
   "<VOCNOISE>".data, "<NOISE>".data, "\x7bB_TRANS\x7d".data,
   "\x7bE_TRANS\x7d".data]

/-- `token["word"].upper().startswith(BREAK_LABELS)` of the source: the
upper-cased word starts with one of the break labels. -/
def isBreak (w : List Char) : Bool :=
  BREAK_LABELS.any (fun b => b.isPrefixOf (w.map Char.toUpper))

/-- Parsing of one annotation line, shared by the two window comprehensions
of `get_context`:
`time, trans = s.strip().split(" ", 1)` (a `ValueError` if there is no
space), `float(time)` (a `ValueError` if unparseable), and
`trans.split(" ", 2)[1]` (an `IndexError` if `trans` contains no space).
In the right-window comprehension the source applies `.strip()` to `time`
before `float`, in the left one it does not; since `float()` itself ignores
surrounding whitespace (modelled inside `pyFloat`), the two comprehensions
parse identically. -/
def parseLine (s : String) : Except PyErr Token :=
  match pySplit ' ' 1 (pyStrip s.data) with
  | [time, transPart] =>
      match pyFloat time with
      | some tv =>
          match (pySplit ' ' 2 transPart).get? 1 with
          | some w => Except.ok ⟨tv, w⟩
          | none => Except.error PyErr.indexError
      | none => Except.error PyErr.valueError
  | _ => Except.error PyErr.valueError

/-- The parsed value of a line, with a junk default on unparseable lines
(only ever consulted where a successful parse is separately known). -/
def parseTok (s : String) : Token :=
  match parseLine s with
  | Except.ok tok => tok
  | Except.error _ => default

/-- The end time of a line's token (junk `0` on unparseable lines). -/
def lineTime (s : String) : ℚ :=
  (parseTok s).t

/-- The word label of a line's token (junk `[]` on unparseable lines). -/
def lineWord (s : String) : List Char :=
  (parseTok s).word

/-- Parse a whole window, stopping at the first malformed line, in the order
the Python list comprehension evaluates. -/
def parseAll : List String → Except PyErr (List Token)
  | [] => Except.ok []
  | s :: rest => do
    let tok ← parseLine s
    let toks ← parseAll rest
    pure (tok :: toks)

/-- The left-window walk of the source:
`for token in l_dat[1:][::-1]: l_dist.append(start_time - token["t"]);
if token["word"].upper().startswith(BREAK_LABELS): break` —
the distance of a break token is appended before the walk stops. -/
def leftWalk (start_time : ℚ) : List Token → List ℚ
  | [] => []
  | tok :: rest =>
      (start_time - tok.t) ::
        (if isBreak tok.word then [] else leftWalk start_time rest)

/-- The right-window walk of the source:
`for token in r_dat[1:]: if token["word"].upper().startswith(BREAK_LABELS):
break; r_dist.append(token["t"] - end_time)` —
the walk stops before appending a distance for a break token. -/
def rightWalk (end_time : ℚ) : List Token → List ℚ
  | [] => []
  | tok :: rest =>
      if isBreak tok.word then [] else (tok.t - end_time) :: rightWalk end_time rest

/-- Clamp one bound of a Python slice `l[a:b]` to an index of `l`
(negative indices count from the end, out-of-range indices are clamped). -/
def sliceIdx (n : ℕ) (i : ℤ) : ℕ :=
  if i < 0 then ((n : ℤ) + i).toNat else min i.toNat n

/-- Python list slicing `l[a:b]` (step 1). -/
def pySlice {α : Type} (l : List α) (a b : ℤ) : List α :=
  (l.take (sliceIdx l.length b)).drop (sliceIdx l.length a)

/-- The `l_dist` accumulator produced from the parsed left window `l_dat`:
empty when the window is empty; otherwise the anchor
`start_time = l_dat[-1]["t"]` is the end time of the last window token and
the walk runs over `l_dat[1:][::-1]`. -/
def leftDistOf (l_dat : List Token) : List ℚ :=
  match l_dat.getLast? with
  | none => []
  | some lastTok => leftWalk lastTok.t ((l_dat.drop 1).reverse)

/-- Lines 119–141 of the source: build and walk the left window.  (The
source guards the whole block with `if l_win:`; on an empty window it parses
nothing and leaves `l_dist = []`, which coincides with mapping `leftDistOf`
over the parse of the empty list.) -/
def leftPart (l_win : List String) : Except PyErr (List ℚ) :=
  (parseAll l_win).map leftDistOf

/-- Lines 143–164 of the source: build and walk the right window, whose
first element is the reference token itself; `r_dat[0]` raises an
`IndexError` when the window is empty. -/
def rightPart (r_win : List String) : Except PyErr (List ℚ) := do
  let r_dat ← parseAll r_win
  match r_dat with
  | [] => Except.error PyErr.indexError
  | refTok :: rest => pure (rightWalk refTok.t rest)

/-- `get_context` after the header-normalization step, on the (possibly
already truncated) line list and the shifted reference position:
`l_start = max(0, ref_pos - span - 2)`,
`r_end = min(len(lines), ref_pos + span + 1)`, the two window walks, and the
final `return (l_dist[1:], r_dist)`. -/
def getContextCore (lines : List String) (ref_pos span : ℤ) :
    Except PyErr (List ℚ × List ℚ) := do
  let l_dist ← leftPart (pySlice lines (max 0 (ref_pos - span - 2)) ref_pos)
  let r_dist ← rightPart
    (pySlice lines ref_pos (min (lines.length : ℤ) (ref_pos + span + 1)))
  pure (l_dist.drop 1, r_dist)

/-- The header scan of `get_context` (lines 92–99): the index of the first
line equal to `"#"`, else of the first line equal to `"#\n"`, else `none`
(in which case the source sets `header_pos = 0`). -/
def headerIndex (lines : List String) : Option Nat :=
  if lines.contains "#" then some (lines.indexOf "#")
  else if lines.contains "#\n" then some (lines.indexOf "#\n")
  else none

/-- The full `get_context(lines, ref_pos, span)`: drop everything up to and
including the header row when one exists, and shift the reference position
by `ref_pos - header_pos - 1` — with `header_pos = 0` when no header row is
found, so that the shift by `-1` happens unconditionally. -/
def get_context (lines : List String) (ref_pos span : ℤ) :
    Except PyErr (List ℚ × List ℚ) :=
  match headerIndex lines with
  | some h => getContextCore (lines.drop (h + 1)) (ref_pos - h - 1) span
  | none => getContextCore lines (ref_pos - 1) span

/-- Python `max(list)` on a non-empty list (the `[]` case never arises in
`get_speechrate`, whose branches guard non-emptiness). -/
def pyMax : List ℚ → ℚ
  | [] => 0
  | x :: xs => xs.foldl max x

/-- `get_speechrate(l_dist, r_dist)` (lines 169–207 of the source), with
Python's falsy empty list spelt out and `None` modelled as `none`. -/
def get_speechrate (l_dist r_dist : List ℚ) : Option ℚ :=
  if l_dist ≠ [] ∧ r_dist ≠ [] then
    some ((pyMax l_dist + pyMax r_dist) /
      ((l_dist.length : ℚ) + (r_dist.length : ℚ)))
  else if r_dist ≠ [] ∧ l_dist = [] then
    some (pyMax r_dist / (r_dist.length : ℚ))
  else if l_dist ≠ [] then
    some (pyMax l_dist / (l_dist.length : ℚ))
  else
    none

/-! ## Inversion and structure lemmas -/

theorem except_bind_ok {ε α β : Type} (x : Except ε α) (f : α → Except ε β)
    (b : β) :
    (x >>= f) = Except.ok b ↔ ∃ a, x = Except.ok a ∧ f a = Except.ok b := by
  cases x with
  | error e => simp [Bind.bind, Except.bind]
  | ok a => simp [Bind.bind, Except.bind]

theorem except_map_ok {ε α β : Type} (f : α → β) (x : Except ε α) (b : β) :
    x.map f = Except.ok b ↔ ∃ a, x = Except.ok a ∧ f a = b := by
  cases x with
  | error e => simp [Except.map]
  | ok a => simp [Except.map]

theorem parseAll_ok_map (ss : List String) (ts : List Token)
    (h : parseAll ss = Except.ok ts) :
    ts = ss.map parseTok ∧ ∀ s ∈ ss, parseLine s = Except.ok (parseTok s) := by
  induction ss generalizing ts with
  | nil =>
      simp only [parseAll] at h
      cases h
      simp
  | cons s rest ih =>
      simp only [parseAll] at h
      rcases (except_bind_ok _ _ _).1 h with ⟨tok, htok, h2⟩
      rcases (except_bind_ok _ _ _).1 h2 with ⟨toks, htoks, h3⟩
      have h4 : tok :: toks = ts := by
        simpa [pure, Except.pure] using h3
      obtain ⟨hmap, hall⟩ := ih toks htoks
      have hps : parseTok s = tok := by simp [parseTok, htok]
      refine ⟨by simp [← h4, hmap, hps], ?_⟩
      intro x hx
      rcases List.mem_cons.1 hx with hx | hx
      · subst hx; rw [hps]; exact htok
      · exact hall x hx

theorem parseAll_ok_of_wf (ss : List String)
    (h : ∀ s ∈ ss, ∃ tok, parseLine s = Except.ok tok) :
    parseAll ss = Except.ok (ss.map parseTok) := by
  induction ss with
  | nil => rfl
  | cons s rest ih =>
      obtain ⟨tok, htok⟩ := h s (by simp)
      have hr := ih (fun x hx => h x (List.mem_cons_of_mem _ hx))
      have hps : parseTok s = tok := by simp [parseTok, htok]
      simp [parseAll, htok, hr, Bind.bind, Except.bind, pure, Except.pure, hps]

/-- Inversion of a successful `getContextCore` run into the parses of its two
windows and the two walks. -/
theorem core_ok_iff (lines : List String) (p span : ℤ) (l r : List ℚ) :
    getContextCore lines p span = Except.ok (l, r) ↔
      ∃ ltoks refTok rtoks,
        parseAll (pySlice lines (max 0 (p - span - 2)) p) = Except.ok ltoks ∧
        parseAll (pySlice lines p (min (lines.length : ℤ) (p + span + 1)))
          = Except.ok (refTok :: rtoks) ∧
        l = (leftDistOf ltoks).drop 1 ∧
        r = rightWalk refTok.t rtoks := by
  constructor
  · intro h
    unfold getContextCore at h
    rcases (except_bind_ok _ _ _).1 h with ⟨ld, hld, h2⟩
    rcases (except_bind_ok _ _ _).1 h2 with ⟨rd, hrd, h3⟩
    have h4 : ld.drop 1 = l ∧ rd = r := by
      simpa [pure, Except.pure] using h3
    rcases (except_map_ok _ _ _).1 hld with ⟨ltoks, hlt, hldval⟩
    unfold rightPart at hrd
    rcases (except_bind_ok _ _ _).1 hrd with ⟨rdat, hrdat, h5⟩
    cases rdat with
    | nil => simp [pure, Except.pure] at h5
    | cons refTok rest =>
        have h6 : rightWalk refTok.t rest = rd := by
          simpa [pure, Except.pure] using h5
        exact ⟨ltoks, refTok, rest, hlt, hrdat,
          by rw [← h4.1, hldval], by rw [← h4.2, h6]⟩
  · rintro ⟨ltoks, refTok, rtoks, hL, hR, hl, hr⟩
    subst hl hr
    unfold getContextCore leftPart rightPart
    rw [hL, hR]
    simp [Except.map, Bind.bind, Except.bind, pure, Except.pure]

/-! ## Walk lemmas -/

/-- The prefix of a token list the left walk visits: everything up to and
including the first break token. -/
def takeIncl : List Token → List Token
  | [] => []
  | tok :: rest => tok :: (if isBreak tok.word then [] else takeIncl rest)

theorem leftWalk_eq_map (s : ℚ) (ts : List Token) :
    leftWalk s ts = (takeIncl ts).map (fun tok => s - tok.t) := by
  induction ts with
  | nil => rfl
  | cons tok rest ih =>
      by_cases h : isBreak tok.word <;> simp [leftWalk, takeIncl, h, ih]

theorem takeIncl_sublist (ts : List Token) : List.Sublist (takeIncl ts) ts := by
  induction ts with
  | nil => exact List.Sublist.refl _
  | cons tok rest ih =>
      by_cases h : isBreak tok.word
      · simp only [takeIncl, h, if_true]
        exact (List.nil_sublist rest).cons₂ tok
      · simp only [takeIncl, h, if_false]
        exact ih.cons₂ tok

theorem rightWalk_eq_map (e : ℚ) (ts : List Token) :
    rightWalk e ts
      = (ts.takeWhile (fun tok => !isBreak tok.word)).map
          (fun tok => tok.t - e) := by
  induction ts with
  | nil => rfl
  | cons tok rest ih =>
      by_cases h : isBreak tok.word <;>
        simp [rightWalk, List.takeWhile_cons, h, ih]

theorem leftWalk_length_le (s : ℚ) (ts : List Token) :
    (leftWalk s ts).length ≤ ts.length := by
  rw [leftWalk_eq_map, List.length_map]
  exact (takeIncl_sublist ts).length_le

theorem rightWalk_length_le (e : ℚ) (ts : List Token) :
    (rightWalk e ts).length ≤ ts.length := by
  rw [rightWalk_eq_map, List.length_map]
  exact (List.takeWhile_sublist _).length_le

theorem mem_leftWalk (s : ℚ) (ts : List Token) (d : ℚ)
    (hd : d ∈ leftWalk s ts) : ∃ tok ∈ ts, d = s - tok.t := by
  rw [leftWalk_eq_map] at hd
  rcases List.mem_map.1 hd with ⟨tok, htok, hdd⟩
  exact ⟨tok, (takeIncl_sublist ts).subset htok, hdd.symm⟩

theorem mem_rightWalk (e : ℚ) (ts : List Token) (d : ℚ)
    (hd : d ∈ rightWalk e ts) : ∃ tok ∈ ts, d = tok.t - e := by
  rw [rightWalk_eq_map] at hd
  rcases List.mem_map.1 hd with ⟨tok, htok, hdd⟩
  exact ⟨tok, (List.takeWhile_sublist _).subset htok, hdd.symm⟩

theorem leftWalk_pairwise (s : ℚ) (ts : List Token)
    (h : ts.Pairwise (fun a b => b.t ≤ a.t)) :
    (leftWalk s ts).Pairwise (· ≤ ·) := by
  rw [leftWalk_eq_map, List.pairwise_map]
  exact ((h.sublist (takeIncl_sublist ts)).imp fun hab => by
    simpa using sub_le_sub_left hab s)

theorem rightWalk_pairwise (e : ℚ) (ts : List Token)
    (h : ts.Pairwise (fun a b => a.t ≤ b.t)) :
    (rightWalk e ts).Pairwise (· ≤ ·) := by
  rw [rightWalk_eq_map, List.pairwise_map]
  exact ((h.sublist (List.takeWhile_sublist _)).imp fun hab => by
    simpa using sub_le_sub_right hab e)

/-! ## Slice lemmas -/

theorem pySlice_sublist {α : Type} (l : List α) (a b : ℤ) :
    List.Sublist (pySlice l a b) l :=
  (List.drop_sublist _ _).trans (List.take_sublist _ _)

theorem sliceIdx_coe (n p : ℕ) : sliceIdx n (p : ℤ) = min p n := by
  unfold sliceIdx
  rw [if_neg (by omega)]
  omega

/-- The left window slice, for a reference position inside the list: the
last `min p (span+2)` lines before position `p`. -/
theorem lwin_eq (lines : List String) (p span : ℕ) (hp : p ≤ lines.length) :
    pySlice lines (max 0 ((p : ℤ) - (span : ℤ) - 2)) (p : ℤ)
      = (lines.take p).drop (p - (span + 2)) := by
  unfold pySlice
  have h1 : sliceIdx lines.length (p : ℤ) = p := by
    rw [sliceIdx_coe]; omega
  have h2 : sliceIdx lines.length (max 0 ((p : ℤ) - (span : ℤ) - 2))
      = p - (span + 2) := by
    unfold sliceIdx
    rw [if_neg (by omega)]
    omega
  rw [h1, h2]

theorem drop_eq_getD_cons {α : Type} (l : List α) (p : ℕ) (hp : p < l.length)
    (d : α) : l.drop p = l.getD p d :: l.drop (p + 1) := by
  rw [List.drop_eq_getElem_cons hp]
  congr 1
  exact (List.getD_eq_getElem l d hp).symm

/-- The right window slice, for a reference position inside the list: the
reference line followed by the next `min (rest) span` lines. -/
theorem rwin_eq (lines : List String) (p span : ℕ) (hp : p < lines.length) :
    pySlice lines (p : ℤ) (min (lines.length : ℤ) ((p : ℤ) + (span : ℤ) + 1))
      = lines.getD p ""
          :: (lines.drop (p + 1)).take (min (lines.length - (p + 1)) span) := by
  unfold pySlice
  have h1 : sliceIdx lines.length (p : ℤ) = p := by
    rw [sliceIdx_coe]; omega
  have h2 : sliceIdx lines.length
        (min (lines.length : ℤ) ((p : ℤ) + (span : ℤ) + 1))
      = min lines.length (p + span + 1) := by
    unfold sliceIdx
    rw [if_neg (by omega)]
    omega
  rw [h1, h2]
  have h3 : min lines.length (p + span + 1)
      = p + (min (lines.length - (p + 1)) span + 1) := by omega
  rw [h3, ← List.take_drop, drop_eq_getD_cons lines p hp "", List.take_succ_cons]

/-! ## `getLast?` helpers -/

theorem getLast?_drop_of_lt {α : Type} (l : List α) (k : ℕ)
    (hk : k < l.length) : (l.drop k).getLast? = l.getLast? := by
  induction l generalizing k with
  | nil => simp at hk
  | cons a t ih =>
      cases k with
      | zero => rfl
      | succ q =>
          have hq : q < t.length := by simpa using hk
          rw [List.drop_succ_cons, ih q hq]
          cases t with
          | nil => simp at hq
          | cons b t' => rw [List.getLast?_cons_cons]

theorem getLast?_take_eq {α : Type} (l : List α) (p : ℕ) (h0 : 0 < p)
    (hp : p ≤ l.length) (d : α) :
    (l.take p).getLast? = some (l.getD (p - 1) d) := by
  induction l generalizing p with
  | nil => simp at hp; omega
  | cons a t ih =>
      cases p with
      | zero => omega
      | succ q =>
          cases q with
          | zero => simp
          | succ q' =>
              have hp' : q' + 1 ≤ t.length := by simpa using hp
              have hrec := ih (q' + 1) (by omega) hp'
              have hne : t.take (q' + 1) ≠ [] := by
                intro hcon
                have hlen : (t.take (q' + 1)).length = q' + 1 := by
                  rw [List.length_take]; omega
                rw [hcon] at hlen
                simp at hlen
              have hg : (a :: t.take (q' + 1)).getLast?
                  = (t.take (q' + 1)).getLast? := by
                cases hq : t.take (q' + 1) with
                | nil => exact absurd hq hne
                | cons x xs => rw [List.getLast?_cons_cons]
              rw [List.take_succ_cons, hg, hrec]
              rfl

theorem getLast?_map_eq {α β : Type} (f : α → β) (l : List α) :
    (l.map f).getLast? = l.getLast?.map f := by
  induction l with
  | nil => rfl
  | cons a t ih =>
      cases t with
      | nil => rfl
      | cons b t' =>
          simpa [List.getLast?_cons_cons] using ih

theorem mem_of_getLast?_eq {α : Type} (l : List α) (a : α)
    (h : l.getLast? = some a) : a ∈ l := by
  induction l with
  | nil => simp at h
  | cons x t ih =>
      cases t with
      | nil =>
          simp only [List.getLast?_singleton, Option.some.injEq] at h
          simp [h]
      | cons y t' =>
          rw [List.getLast?_cons_cons] at h
          exact List.mem_cons_of_mem _ (ih h)

/-- In a list whose token times are pairwise nondecreasing, every member's
time is at most the last member's time. -/
theorem t_le_getLast_of_pairwise (ts : List Token)
    (h : ts.Pairwise (fun a b => a.t ≤ b.t)) (lastTok : Token)
    (hl : ts.getLast? = some lastTok) (x : Token) (hx : x ∈ ts) :
    x.t ≤ lastTok.t := by
  induction ts with
  | nil => simp at hx
  | cons a t ih =>
      rcases List.pairwise_cons.1 h with ⟨ha, ht⟩
      cases t with
      | nil =>
          simp only [List.getLast?_singleton, Option.some.injEq] at hl
          simp only [List.mem_singleton] at hx
          rw [hx, hl]
      | cons b t' =>
          rw [List.getLast?_cons_cons] at hl
          rcases List.mem_cons.1 hx with hx | hx
          · rw [hx]
            exact ha lastTok (mem_of_getLast?_eq _ _ hl)
          · exact ih ht hl hx

/-! ## `pyMax` lemmas -/

theorem foldl_max_le_init (l : List ℚ) (init : ℚ) : init ≤ l.foldl max init := by
  induction l generalizing init with
  | nil => simp
  | cons x t ih => exact le_trans (le_max_left _ _) (ih (max init x))

theorem le_foldl_max (l : List ℚ) (init x : ℚ) (hx : x ∈ l) :
    x ≤ l.foldl max init := by
  induction l generalizing init with
  | nil => simp at hx
  | cons y t ih =>
      rcases List.mem_cons.1 hx with h | h
      · rw [h, List.foldl_cons]
        exact le_trans (le_max_right _ _) (foldl_max_le_init t _)
      · exact ih (max init y) h

theorem foldl_max_mem (l : List ℚ) (init : ℚ) :
    l.foldl max init = init ∨ l.foldl max init ∈ l := by
  induction l generalizing init with
  | nil => left; rfl
  | cons x t ih =>
      rcases ih (max init x) with h | h
      · rcases max_choice init x with hc | hc
        · left; rw [List.foldl_cons, h, hc]
        · right; rw [List.foldl_cons, h, hc]; simp
      · right
        rw [List.foldl_cons]
        exact List.mem_cons_of_mem _ h

theorem pyMax_mem (l : List ℚ) (h : l ≠ []) : pyMax l ∈ l := by
  cases l with
  | nil => exact absurd rfl h
  | cons x t =>
      rcases foldl_max_mem t x with h1 | h1
      · rw [pyMax, h1]; simp
      · rw [pyMax]; exact List.mem_cons_of_mem _ h1

theorem le_pyMax (l : List ℚ) (x : ℚ) (hx : x ∈ l) : x ≤ pyMax l := by
  cases l with
  | nil => simp at hx
  | cons y t =>
      rcases List.mem_cons.1 hx with h | h
      · rw [h, pyMax]
        exact foldl_max_le_init t y
      · rw [pyMax]
        exact le_foldl_max t y x h

/-- `pyMax` agrees with any value characterised as a maximum by membership
and upper-boundedness. -/
theorem pyMax_eq_of_isMax (l : List ℚ) (a : ℚ) (hmem : a ∈ l)
    (hub : ∀ x ∈ l, x ≤ a) : pyMax l = a :=
  le_antisymm (hub _ (pyMax_mem l (List.ne_nil_of_mem hmem)))
    (le_pyMax l a hmem)

/-! ## Shape of a successful run at a natural reference position -/

theorem leftDistOf_length_le (ts : List Token) :
    (leftDistOf ts).length ≤ ts.length - 1 := by
  unfold leftDistOf
  cases h : ts.getLast? with
  | none => simp
  | some lastTok =>
      calc (leftWalk lastTok.t ((ts.drop 1).reverse)).length
          ≤ ((ts.drop 1).reverse).length := leftWalk_length_le _ _
        _ = ts.length - 1 := by rw [List.length_reverse, List.length_drop]

/-- A successful `getContextCore` run at a natural reference position needs
the right window to be non-empty, hence the position is in range. -/
theorem core_ok_ref_lt (lines : List String) (p span : ℕ) (l r : List ℚ)
    (hok : getContextCore lines (p : ℤ) (span : ℤ) = Except.ok (l, r)) :
    p < lines.length := by
  rcases (core_ok_iff _ _ _ _ _).1 hok with ⟨ltoks, refTok, rtoks, hL, hR, hl, hr⟩
  by_contra hge
  push_neg at hge
  have hempty : pySlice lines (p : ℤ)
      (min (lines.length : ℤ) ((p : ℤ) + (span : ℤ) + 1)) = [] := by
    unfold pySlice
    rw [sliceIdx_coe]
    apply List.drop_eq_nil_of_le
    rw [List.length_take]
    omega
  rw [hempty] at hR
  simp [parseAll] at hR

/-- Length bounds for both outputs of a successful run: each window holds at
most `span` distances. -/
theorem core_len_bounds (lines : List String) (p span : ℕ) (l r : List ℚ)
    (hok : getContextCore lines (p : ℤ) (span : ℤ) = Except.ok (l, r)) :
    p < lines.length ∧ l.length ≤ span ∧ r.length ≤ span := by
  have hpn : p < lines.length := core_ok_ref_lt lines p span l r hok
  rcases (core_ok_iff _ _ _ _ _).1 hok with ⟨ltoks, refTok, rtoks, hL, hR, hl, hr⟩
  refine ⟨hpn, ?_, ?_⟩
  · -- left bound
    rw [lwin_eq lines p span (le_of_lt hpn)] at hL
    obtain ⟨hmap, -⟩ := parseAll_ok_map _ _ hL
    have hlen : ltoks.length ≤ span + 2 := by
      rw [hmap, List.length_map, List.length_drop, List.length_take]
      omega
    have hld : (leftDistOf ltoks).length ≤ span + 1 := by
      have := leftDistOf_length_le ltoks
      omega
    rw [hl, List.length_drop]
    omega
  · -- right bound
    rw [rwin_eq lines p span hpn] at hR
    obtain ⟨hmap, -⟩ := parseAll_ok_map _ _ hR
    have hlen : rtoks.length ≤ span := by
      have hlm := congrArg List.length hmap
      simp only [List.length_cons, List.length_map, List.length_take,
        List.length_drop] at hlm
      omega
    rw [hr]
    calc (rightWalk refTok.t rtoks).length ≤ rtoks.length :=
          rightWalk_length_le _ _
      _ ≤ span := hlen

/-- The last line of the left window is the line immediately before the
reference position. -/
theorem lwin_getLast (lines : List String) (p span : ℕ) (h0 : 0 < p)
    (hp : p ≤ lines.length) :
    ((lines.take p).drop (p - (span + 2))).getLast?
      = some (lines.getD (p - 1) "") := by
  have hlen : (lines.take p).length = p := by rw [List.length_take]; omega
  rw [getLast?_drop_of_lt _ _ (by omega)]
  exact getLast?_take_eq lines p h0 hp ""

/-- When the window has at least two tokens, the reversed walk list starts
with the window's last token. -/
theorem drop1_reverse_head (ts : List Token) (h2 : 2 ≤ ts.length)
    (lastTok : Token) (hl : ts.getLast? = some lastTok) :
    ∃ rest, (ts.drop 1).reverse = lastTok :: rest := by
  have h1 : ((ts.drop 1).reverse).head? = some lastTok := by
    rw [List.head?_reverse, getLast?_drop_of_lt ts 1 (by omega), hl]
  cases hrev : (ts.drop 1).reverse with
  | nil => rw [hrev] at h1; simp at h1
  | cons x rest =>
      rw [hrev] at h1
      simp only [List.head?_cons, Option.some.injEq] at h1
      exact ⟨rest, by rw [h1]⟩

/-- If the token next to the anchor (the window's last token) is a break
token, the final `l_dist[1:]` is empty: its sole appended distance is the
one dropped by the `[1:]`. -/
theorem leftDistOf_drop_of_break_last (ts : List Token) (lastTok : Token)
    (hlast : ts.getLast? = some lastTok) (hbrk : isBreak lastTok.word = true) :
    (leftDistOf ts).drop 1 = [] := by
  unfold leftDistOf
  rw [hlast]
  rcases Nat.lt_or_ge ts.length 2 with hlen | hlen
  · have hdrop : ts.drop 1 = [] :=
      List.eq_nil_of_length_eq_zero (by rw [List.length_drop]; omega)
    rw [hdrop]
    simp [leftWalk]
  · obtain ⟨rest, hrev⟩ := drop1_reverse_head ts hlen lastTok hlast
    rw [hrev]
    simp only [leftWalk, if_pos hbrk]
    rfl

/-! ## Claim theorems -/

/-- **C1**: for any two finite lists, `get_speechrate` returns
`(max l + max r) / (len l + len r)` when both are non-empty,
`max r / len r` when only the right is non-empty, `max l / len l` when only
the left is non-empty, and the explicit undefined value `none` (not zero and
not an error) when both are empty.  The maxima are characterised
spec-side by membership and upper-boundedness. -/
theorem get_speechrate_spec (l r : List ℚ) :
    (∀ a b : ℚ, (a ∈ l ∧ ∀ x ∈ l, x ≤ a) → (b ∈ r ∧ ∀ x ∈ r, x ≤ b) →
        get_speechrate l r
          = some ((a + b) / ((l.length : ℚ) + (r.length : ℚ))))
  ∧ (∀ b : ℚ, l = [] → (b ∈ r ∧ ∀ x ∈ r, x ≤ b) →
        get_speechrate l r = some (b / (r.length : ℚ)))
  ∧ (∀ a : ℚ, r = [] → (a ∈ l ∧ ∀ x ∈ l, x ≤ a) →
        get_speechrate l r = some (a / (l.length : ℚ)))
  ∧ (l = [] → r = [] → get_speechrate l r = none) := by
  refine ⟨?_, ?_, ?_, ?_⟩
  · rintro a b ⟨ha1, ha2⟩ ⟨hb1, hb2⟩
    have hl : l ≠ [] := List.ne_nil_of_mem ha1
    have hr : r ≠ [] := List.ne_nil_of_mem hb1
    rw [get_speechrate, if_pos ⟨hl, hr⟩, pyMax_eq_of_isMax l a ha1 ha2,
      pyMax_eq_of_isMax r b hb1 hb2]
  · rintro b hl ⟨hb1, hb2⟩
    have hr : r ≠ [] := List.ne_nil_of_mem hb1
    rw [get_speechrate, if_neg (by simp [hl]), if_pos ⟨hr, hl⟩,
      pyMax_eq_of_isMax r b hb1 hb2]
  · rintro a hr ⟨ha1, ha2⟩
    have hl : l ≠ [] := List.ne_nil_of_mem ha1
    rw [get_speechrate, if_neg (by simp [hr]), if_neg (by simp [hr]),
      if_pos hl, pyMax_eq_of_isMax l a ha1 ha2]
  · intro hl hr
    rw [get_speechrate, if_neg (by simp [hl]), if_neg (by simp [hr]),
      if_neg (by simp [hl])]

/-- Witness for C1, instantiating the both-non-empty case at the spec's own
example `rate([1.0, 3.0], [2.0, 5.0]) == (3.0 + 5.0) / 4`. -/
theorem get_speechrate_spec_witness :
    get_speechrate [(1 : ℚ), 3] [2, 5] = some 2 := by
  have h := (get_speechrate_spec [(1 : ℚ), 3] [2, 5]).1 3 5
    ⟨by norm_num, by intro x hx; fin_cases hx <;> norm_num⟩
    ⟨by norm_num, by intro x hx; fin_cases hx <;> norm_num⟩
  rw [h]
  norm_num

/-- **C5**: for a successful run at a valid (post-normalization) reference
position with `span ≥ 0`, both distance lists have length at most `span`. -/
theorem window_length_le_span (lines : List String) (p span : ℕ)
    (l r : List ℚ)
    (hok : getContextCore lines (p : ℤ) (span : ℤ) = Except.ok (l, r)) :
    l.length ≤ span ∧ r.length ≤ span :=
  ⟨(core_len_bounds lines p span l r hok).2.1,
   (core_len_bounds lines p span l r hok).2.2⟩

/-- Witness for C5 at a concrete successful run. -/
theorem window_length_le_span_witness :
    ([(1 : ℚ)] : List ℚ).length ≤ 3 ∧ ([] : List ℚ).length ≤ 3 := by
  refine window_length_le_span ["0.5 1 a", "1.0 1 b", "2.0 1 c", "4.0 1 d"]
    3 3 [1] [] ?_
  with_unfolding_all decide

/-- **C10**: with `span = 0` every successful run returns two empty lists,
and the composed pipeline therefore yields `None`. -/
theorem span_zero_empty_none (lines : List String) (p : ℕ) (l r : List ℚ)
    (hok : getContextCore lines (p : ℤ) ((0 : ℕ) : ℤ) = Except.ok (l, r)) :
    l = [] ∧ r = [] ∧ get_speechrate l r = none := by
  obtain ⟨-, hlb, hrb⟩ := core_len_bounds lines p 0 l r hok
  have hl : l = [] := List.eq_nil_of_length_eq_zero (by omega)
  have hr : r = [] := List.eq_nil_of_length_eq_zero (by omega)
  subst hl hr
  exact ⟨rfl, rfl, rfl⟩

/-- Witness for C10 at a concrete successful run. -/
theorem span_zero_empty_none_witness :
    ([] : List ℚ) = [] ∧ ([] : List ℚ) = [] ∧
      get_speechrate [] [] = none := by
  refine span_zero_empty_none ["0.5 1 a", "1.0 1 b"] 1 [] [] ?_
  with_unfolding_all decide

/-- **C4**: if the token immediately preceding the (post-normalization)
reference position carries a break label, the left list is empty; if the
token immediately following it carries a break label, the right list is
empty. -/
theorem break_adjacent_empty (lines : List String) (p span : ℕ)
    (l r : List ℚ)
    (hok : getContextCore lines (p : ℤ) (span : ℤ) = Except.ok (l, r)) :
    (1 ≤ p → isBreak (lineWord (lines.getD (p - 1) "")) → l = [])
  ∧ (p + 1 < lines.length → isBreak (lineWord (lines.getD (p + 1) "")) →
      r = []) := by
  have hpn : p < lines.length := core_ok_ref_lt lines p span l r hok
  rcases (core_ok_iff _ _ _ _ _).1 hok with
    ⟨ltoks, refTok, rtoks, hL, hR, hl, hr⟩
  constructor
  · intro hp1 hbrk
    rw [lwin_eq lines p span hpn.le] at hL
    obtain ⟨hmap, -⟩ := parseAll_ok_map _ _ hL
    have hlast : ltoks.getLast? = some (parseTok (lines.getD (p - 1) "")) := by
      rw [hmap, getLast?_map_eq, lwin_getLast lines p span hp1 hpn.le]
      rfl
    rw [hl]
    exact leftDistOf_drop_of_break_last ltoks _ hlast
      (by simpa [lineWord] using hbrk)
  · intro hq hbrk
    rw [rwin_eq lines p span hpn] at hR
    obtain ⟨hmap, -⟩ := parseAll_ok_map _ _ hR
    have h2 : rtoks
        = ((lines.drop (p + 1)).take
            (min (lines.length - (p + 1)) span)).map parseTok := by
      rw [List.map_cons] at hmap
      exact (List.cons.injEq _ _ _ _ ▸ hmap).2
    rcases Nat.eq_zero_or_pos span with hs | hs
    · subst hs
      simp only [Nat.min_zero, List.take_zero, List.map_nil] at h2
      rw [hr, h2]
      rfl
    · obtain ⟨k, hk⟩ : ∃ k, min (lines.length - (p + 1)) span = k + 1 :=
        ⟨min (lines.length - (p + 1)) span - 1, by omega⟩
      rw [hk, drop_eq_getD_cons lines (p + 1) hq "", List.take_succ_cons,
        List.map_cons] at h2
      rw [hr, h2]
      simp only [rightWalk]
      rw [if_pos (by simpa [lineWord] using hbrk)]

/-- Witness for C4: the reference token is surrounded by `<SIL>` pauses and
both returned lists are empty. -/
theorem break_adjacent_empty_witness :
    ([] : List ℚ) = [] ∧ ([] : List ℚ) = [] := by
  have h := break_adjacent_empty
    ["0.5 1 <SIL>", "1.0 1 b", "2.0 1 <SIL>", "4.0 1 d"] 1 5 [] []
    (by with_unfolding_all decide)
  exact ⟨h.1 (by norm_num) (by with_unfolding_all decide),
    h.2 (by norm_num) (by with_unfolding_all decide)⟩

/-- **C7**: a reference token at the very start of the (post-header)
sequence has an empty left list; one at the very end has an empty right
list. -/
theorem boundary_empty_sides (lines : List String) (p span : ℕ)
    (l r : List ℚ)
    (hok : getContextCore lines (p : ℤ) (span : ℤ) = Except.ok (l, r)) :
    (p = 0 → l = []) ∧ (p + 1 = lines.length → r = []) := by
  have hpn : p < lines.length := core_ok_ref_lt lines p span l r hok
  rcases (core_ok_iff _ _ _ _ _).1 hok with
    ⟨ltoks, refTok, rtoks, hL, hR, hl, hr⟩
  constructor
  · intro hp0
    subst hp0
    rw [lwin_eq lines 0 span hpn.le] at hL
    simp only [List.take_zero, List.drop_nil, parseAll] at hL
    cases hL
    rw [hl]
    rfl
  · intro hpe
    rw [rwin_eq lines p span hpn] at hR
    obtain ⟨hmap, -⟩ := parseAll_ok_map _ _ hR
    have hmin : min (lines.length - (p + 1)) span = 0 := by omega
    rw [hmin, List.take_zero, List.map_cons, List.map_nil] at hmap
    have hrt : rtoks = [] := (List.cons.injEq _ _ _ _ ▸ hmap).2
    rw [hr, hrt]
    rfl

/-- Witness for C7, at a two-line recording probed at each end. -/
theorem boundary_empty_sides_witness :
    ([] : List ℚ) = [] ∧ ([] : List ℚ) = [] := by
  constructor
  · exact (boundary_empty_sides ["0.5 1 a", "1.0 1 b"] 0 1 [] [(1 : ℚ)/2]
      (by with_unfolding_all decide)).1 rfl
  · exact (boundary_empty_sides ["0.5 1 a", "1.0 1 b"] 1 1 [] []
      (by with_unfolding_all decide)).2 rfl

/-- **C6**: when the parsed end times are nondecreasing in line order, every
distance in both returned lists is non-negative. -/
theorem distances_nonneg (lines : List String) (p span : ℤ) (l r : List ℚ)
    (hsort : lines.Pairwise (fun s1 s2 => lineTime s1 ≤ lineTime s2))
    (hok : getContextCore lines p span = Except.ok (l, r)) :
    (∀ d ∈ l, 0 ≤ d) ∧ (∀ d ∈ r, 0 ≤ d) := by
  rcases (core_ok_iff _ _ _ _ _).1 hok with
    ⟨ltoks, refTok, rtoks, hL, hR, hl, hr⟩
  obtain ⟨hlm, -⟩ := parseAll_ok_map _ _ hL
  obtain ⟨hrm, -⟩ := parseAll_ok_map _ _ hR
  have hsortL : ltoks.Pairwise (fun a b => a.t ≤ b.t) := by
    rw [hlm, List.pairwise_map]
    exact hsort.sublist (pySlice_sublist _ _ _)
  have hsortR : (refTok :: rtoks).Pairwise (fun a b => a.t ≤ b.t) := by
    rw [hrm, List.pairwise_map]
    exact hsort.sublist (pySlice_sublist _ _ _)
  constructor
  · intro d hd
    rw [hl] at hd
    have hd' : d ∈ leftDistOf ltoks := List.mem_of_mem_drop hd
    unfold leftDistOf at hd'
    cases hlast : ltoks.getLast? with
    | none => rw [hlast] at hd'; simp at hd'
    | some lastTok =>
        rw [hlast] at hd'
        obtain ⟨tok, htokmem, hdd⟩ := mem_leftWalk _ _ _ hd'
        have htokmem' : tok ∈ ltoks :=
          List.mem_of_mem_drop (List.mem_reverse.1 htokmem)
        have hle : tok.t ≤ lastTok.t :=
          t_le_getLast_of_pairwise ltoks hsortL lastTok hlast tok htokmem'
        rw [hdd]
        linarith
  · intro d hd
    rw [hr] at hd
    obtain ⟨tok, htokmem, hdd⟩ := mem_rightWalk _ _ _ hd
    have hle : refTok.t ≤ tok.t := (List.pairwise_cons.1 hsortR).1 tok htokmem
    rw [hdd]
    linarith

/-- Witness for C6 at a concrete chronological recording. -/
theorem distances_nonneg_witness :
    (∀ d ∈ ([] : List ℚ), 0 ≤ d) ∧ (∀ d ∈ [(1 : ℚ)], 0 ≤ d) := by
  refine distances_nonneg ["0.5 1 a", "1.0 1 b", "2.0 1 c"] 1 5 [] [1] ?_ ?_
  · with_unfolding_all decide
  · with_unfolding_all decide

/-- **C9 counterexample**: on a chronologically sorted recording the code
returns the left list `[0.5, 0.7]`, whose distances grow away from the
reference token; a list ordered with the chronologically earliest retained
token's distance first would have to be nonincreasing, but `0.5 < 0.7`. -/
theorem left_order_counterexample :
    get_context ["0.1 1 a", "0.2 1 b", "0.4 1 c", "0.9 1 d", "1.3 1 e"] 5 5
        = Except.ok ([1/2, 7/10], [])
      ∧ ¬ ((7 : ℚ)/10 ≤ 1/2) := by
  constructor
  · with_unfolding_all decide
  · with_unfolding_all decide

/-- **C9 (amended)**: with chronologically nondecreasing parsed times, both
returned lists are sorted nondecreasing: each side lists the distance of
the token nearest the reference first (so the left list is
reverse-chronological, not chronological). -/
theorem output_sorted_nondecreasing (lines : List String) (p span : ℤ)
    (l r : List ℚ)
    (hsort : lines.Pairwise (fun s1 s2 => lineTime s1 ≤ lineTime s2))
    (hok : getContextCore lines p span = Except.ok (l, r)) :
    l.Pairwise (· ≤ ·) ∧ r.Pairwise (· ≤ ·) := by
  rcases (core_ok_iff _ _ _ _ _).1 hok with
    ⟨ltoks, refTok, rtoks, hL, hR, hl, hr⟩
  obtain ⟨hlm, -⟩ := parseAll_ok_map _ _ hL
  obtain ⟨hrm, -⟩ := parseAll_ok_map _ _ hR
  have hsortL : ltoks.Pairwise (fun a b => a.t ≤ b.t) := by
    rw [hlm, List.pairwise_map]
    exact hsort.sublist (pySlice_sublist _ _ _)
  have hsortR : (refTok :: rtoks).Pairwise (fun a b => a.t ≤ b.t) := by
    rw [hrm, List.pairwise_map]
    exact hsort.sublist (pySlice_sublist _ _ _)
  constructor
  · rw [hl]
    apply List.Pairwise.sublist (List.drop_sublist _ _)
    unfold leftDistOf
    cases hlast : ltoks.getLast? with
    | none => simp
    | some lastTok =>
        apply leftWalk_pairwise
        rw [List.pairwise_reverse]
        exact hsortL.sublist (List.drop_sublist _ _)
  · rw [hr]
    exact rightWalk_pairwise _ _ (List.pairwise_cons.1 hsortR).2

/-- Witness for the amended C9 at a concrete chronological recording. -/
theorem output_sorted_nondecreasing_witness :
    ([(1 : ℚ)/2, 7/10] : List ℚ).Pairwise (· ≤ ·) ∧
      ([] : List ℚ).Pairwise (· ≤ ·) := by
  refine output_sorted_nondecreasing
    ["0.1 1 a", "0.2 1 b", "0.4 1 c", "0.9 1 d", "1.3 1 e"] 4 5
    [1/2, 7/10] [] ?_ ?_
  · with_unfolding_all decide
  · with_unfolding_all decide

/-- **C2**: evaluation of the spec's header-equivalence scenario.  The header
row sits at position 2 and is followed by 5 annotation lines; with
`ref_pos = 4` the full call works at post-header position `4 - 2 - 1 = 1`,
while the direct call on the post-header sublist with `ref_pos = 1` works at
position `1 - 0 - 1 = 0`, because the source subtracts `header_pos + 1` even
when no delimiter row exists (`header_pos = 0` in the `else` branch).  The
two results differ, contradicting the claimed equivalence and the claim
that without a delimiter no rebasing occurs. -/
theorem header_rebase_divergence :
    get_context
        ["h1", "h2", "#", "0.5 1 a", "1.0 1 b", "2.0 1 c", "4.0 1 d",
         "8.0 1 e"] 4 2
      = Except.ok ([], [1, 3])
    ∧ get_context ["0.5 1 a", "1.0 1 b", "2.0 1 c", "4.0 1 d", "8.0 1 e"] 1 2
      = Except.ok ([], [1/2, 3/2]) := by
  constructor
  · with_unfolding_all decide
  · with_unfolding_all decide

/-- **C3 counterexample**: on the spec's two-field lines the extractor does
not return `([0.80], [])`; it fails with an `IndexError` because
`trans.split(" ", 2)[1]` needs a second sub-field after the timestamp. -/
theorem scenario_parse_failure :
    get_context
        ["0.10 <SIL>", "0.50 the", "0.90 cat", "1.30 sat", "1.80 <SIL>"] 3 5
      = Except.error PyErr.indexError := by
  with_unfolding_all decide

/-- **C3 (amended)**: the same scenario in the line format the code parses
(timestamp, a second column, then the word) and with the reference token
"sat" addressed through the code's position convention (`ref_pos = 4` since
a headerless list is still shifted by one).  The left walk measures from the
reference token's start time `0.90`, never visits the `<SIL>` at position 0
(the earliest window token only anchors the walk), and keeps only the
distance `0.90 - 0.50 = 0.40`; the right walk stops at `<SIL>` before
appending anything; the rate is `0.40 / 1 = 0.40`. -/
theorem scenario_amended :
    get_context
        ["0.10 1 <SIL>", "0.50 1 the", "0.90 1 cat", "1.30 1 sat",
         "1.80 1 <SIL>"] 4 5
      = Except.ok ([2/5], [])
    ∧ get_speechrate [2/5] [] = some (2/5) := by
  constructor
  · with_unfolding_all decide
  · with_unfolding_all decide

/-- **C8 counterexample**: a malformed line whose label field lacks a second
sub-token (reference position in range) fails with the `IndexError` class —
the very class the claim reserves for out-of-range reference positions, not
a distinct ParseError that names the offending line and its position. -/
theorem malformed_line_error_class :
    get_context ["0.5 foo", "1.0 1 b"] 1 5 = Except.error PyErr.indexError := by
  with_unfolding_all decide

/-- **C8 (amended)**: error behaviour of the extractor at a normalized
reference position: (i) well-formed lines at an in-range position never
error; (ii) an unparseable leading float raises the `ValueError` class and a
missing label sub-field the `IndexError` class, neither naming the line's
position; (iii) a position at or beyond the end of well-formed lines raises
`IndexError`; (iv) a negative normalized position — reachable through the
unconditional headerless shift, e.g. `ref_pos = 0` on a two-line headerless
recording — also raises `IndexError` here, the wrapped right slice
`lines[-1:min(2, 1)]` being empty. -/
theorem error_behavior_amended :
    (∀ (lines : List String) (p span : ℕ), p < lines.length →
        (∀ s ∈ lines, ∃ tok, parseLine s = Except.ok tok) →
        ∃ out, getContextCore lines (p : ℤ) (span : ℤ) = Except.ok out)
  ∧ getContextCore ["abc 1 x"] 0 5 = Except.error PyErr.valueError
  ∧ getContextCore ["0.5 foo"] 0 5 = Except.error PyErr.indexError
  ∧ (∀ (lines : List String) (p span : ℕ), lines.length ≤ p →
      (∀ s ∈ lines, ∃ tok, parseLine s = Except.ok tok) →
      getContextCore lines (p : ℤ) (span : ℤ)
        = Except.error PyErr.indexError)
  ∧ get_context ["0.5 1 a", "1.0 1 b"] 0 1 = Except.error PyErr.indexError := by
  refine ⟨?_, by with_unfolding_all decide, by with_unfolding_all decide, ?_,
    by with_unfolding_all decide⟩
  · intro lines p span hp hwf
    have hLok := parseAll_ok_of_wf
      (pySlice lines (max 0 ((p : ℤ) - (span : ℤ) - 2)) (p : ℤ))
      (fun s hs => hwf s ((pySlice_sublist _ _ _).subset hs))
    have hRok := parseAll_ok_of_wf
      (pySlice lines (p : ℤ)
        (min (lines.length : ℤ) ((p : ℤ) + (span : ℤ) + 1)))
      (fun s hs => hwf s ((pySlice_sublist _ _ _).subset hs))
    have hrs := rwin_eq lines p span hp
    refine ⟨_, (core_ok_iff _ _ _ _ _).2
      ⟨_, parseTok (lines.getD p ""),
        ((lines.drop (p + 1)).take
          (min (lines.length - (p + 1)) span)).map parseTok,
        hLok, ?_, rfl, rfl⟩⟩
    calc parseAll (pySlice lines (p : ℤ)
            (min (lines.length : ℤ) ((p : ℤ) + (span : ℤ) + 1)))
        = Except.ok ((pySlice lines (p : ℤ)
            (min (lines.length : ℤ)
              ((p : ℤ) + (span : ℤ) + 1))).map parseTok) := hRok
      _ = _ := by rw [hrs, List.map_cons]
  · intro lines p span hge hwf
    have hLok := parseAll_ok_of_wf
      (pySlice lines (max 0 ((p : ℤ) - (span : ℤ) - 2)) (p : ℤ))
      (fun s hs => hwf s ((pySlice_sublist _ _ _).subset hs))
    have hempty : pySlice lines (p : ℤ)
        (min (lines.length : ℤ) ((p : ℤ) + (span : ℤ) + 1)) = [] := by
      unfold pySlice
      rw [sliceIdx_coe]
      apply List.drop_eq_nil_of_le
      rw [List.length_take]
      omega
    unfold getContextCore leftPart rightPart
    rw [hLok, hempty]
    simp [Except.map, Bind.bind, Except.bind, parseAll]

/-- Witness for the amended C8: a well-formed two-line recording at an
in-range normalized position returns successfully. -/
theorem error_behavior_amended_witness :
    ∃ out, getContextCore ["0.5 1 a", "1.0 1 b"] ((0 : ℕ) : ℤ) ((5 : ℕ) : ℤ)
      = Except.ok out := by
  refine error_behavior_amended.1 ["0.5 1 a", "1.0 1 b"] 0 5 (by norm_num) ?_
  intro s hs
  fin_cases hs
  · exact ⟨⟨1/2, ['a']⟩, by with_unfolding_all decide⟩
  · exact ⟨⟨1, ['b']⟩, by with_unfolding_all decide⟩

end Speechrate
